import Mathlib

/-!
Verification of the virtualOS sandboxed virtual filesystem, its shell command
dispatcher, the grep engine with context lines, and the agent tool-dispatch
loop, against their natural-language specification.

The embedding follows `src/aisdk-port/src/virtual-fs.ts` (class
`VirtualFileSystem`: `resolve`, `write`, `read`, `listDir`, `delete`, `cd`),
`src/aisdk-port/src/tools/file-tools.ts` (the `runShell` dispatcher with
`-A`/`-B` flag parsing, and the context-aware `VirtualFileSystem.grep`), and
`src/aisdk-port/src/agent.ts` (the tool-call trace collection of `runAgent`).

JavaScript `Map` objects (insertion-ordered, unique keys) are embedded as
association lists; JavaScript strings are embedded as Lean `String` and,
where segment-level reasoning is needed, as their underlying `List Char`.
The host regular-expression engine (`new RegExp(pattern).test(line)`) is out
of the repository's scope and is abstracted as a parameter
`regexTest : String → String → Bool` (pattern, then line).
-/

/-! ## Association-list embedding of JavaScript `Map` -/

/-- JS `map.set(k, v)`: update the existing entry in place, else append. -/
def mapSet {κ α : Type} [DecidableEq κ] : List (κ × α) → κ → α → List (κ × α)
  | [], k, v => [(k, v)]
  | (k', v') :: t, k, v => if k' = k then (k, v) :: t else (k', v') :: mapSet t k v

/-- JS `map.get(k)` (`undefined` becomes `none`). -/
def mapGet {κ α : Type} [DecidableEq κ] : List (κ × α) → κ → Option α
  | [], _ => none
  | (k', v') :: t, k => if k' = k then some v' else mapGet t k

/-- JS `map.has(k)`. -/
def mapHas {κ α : Type} [DecidableEq κ] (m : List (κ × α)) (k : κ) : Bool :=
  (mapGet m k).isSome

/-- JS `map.delete(k)`: remove the entry with key `k`, keep the rest in order. -/
def mapDelete {κ α : Type} [DecidableEq κ] : List (κ × α) → κ → List (κ × α)
  | [], _ => []
  | (k', v') :: t, k => if k' = k then mapDelete t k else (k', v') :: mapDelete t k

/-! ## Character-level string helpers (JS `split`, `join`, `startsWith`, …) -/

/-- JS `str.split(c)` for a one-character separator, on the character list:
`"".split(c) = [""]`, `"/".split("/") = ["", ""]`. -/
def splitOnChar (c : Char) : List Char → List (List Char)
  | [] => [[]]
  | x :: xs =>
    if x = c then [] :: splitOnChar c xs
    else
      match splitOnChar c xs with
      | [] => [[x]]
      | h :: t => (x :: h) :: t

/-- JS `parts.join(c)` for a one-character separator. -/
def joinWith (c : Char) : List (List Char) → List Char
  | [] => []
  | [s] => s
  | s :: r :: rest => s ++ c :: joinWith c (r :: rest)

/-- JS `str.split(c)` at the `String` level. -/
def splitStr (c : Char) (s : String) : List String :=
  (splitOnChar c s.data).map (fun l => ⟨l⟩)

/-- JS `s.startsWith(pre)`. -/
def jsStartsWith (s pre : String) : Bool := pre.data.isPrefixOf s.data

/-- JS `s.endsWith(suf)`. -/
def jsEndsWith (s suf : String) : Bool := suf.data.isSuffixOf s.data

/-! ## Path resolution (`VirtualFileSystem.resolve`) -/

/-- One step of the normalization loop of `resolve`: `".."` pops the last
retained segment if any, empty and `"."` segments are discarded, every other
segment is pushed. -/
def resStep (acc : List (List Char)) (part : List Char) : List (List Char) :=
  if part = ['.', '.'] then acc.dropLast
  else if part ≠ [] ∧ part ≠ ['.'] then acc ++ [part]
  else acc

/-- JS `cwd.replace(/\/$/, "")`: drop one trailing slash. -/
def rstripSlash (l : List Char) : List Char :=
  if l.getLast? = some '/' then l.dropLast else l

/-- `VirtualFileSystem.resolve(path)` with the current working directory made
an explicit argument: root the path at `cwd` unless absolute, split on `/`,
normalize `.`/`..`/empty segments, rejoin prefixed by `/`. -/
def resolve (path cwd : String) : String :=
  let resolved : List Char :=
    if path.data.head? = some '/' then path.data
    else rstripSlash cwd.data ++ '/' :: path.data
  ⟨'/' :: joinWith '/' ((splitOnChar '/' resolved).foldl resStep [])⟩

/-! ## The virtual filesystem state and its operations -/

def VIRTUAL_ROOT : String := "/home/user"

/-- The mutable state of a `VirtualFileSystem` instance: the path→content map
and the current working directory. Each method becomes a function
`VFS → … → VFS × String` returning the successor state and the result text. -/
structure VFS where
  files : List (String × String)
  cwd : String
deriving DecidableEq

def initVFS : VFS := { files := [], cwd := VIRTUAL_ROOT }

namespace VFS

/-- `VirtualFileSystem.write`. -/
def write (s : VFS) (path content : String) : VFS × String :=
  let fullPath := resolve path s.cwd
  ({ s with files := mapSet s.files fullPath content },
   "Successfully wrote " ++ toString content.length ++ " chars to " ++ fullPath)

/-- `VirtualFileSystem.read`. -/
def read (s : VFS) (path : String) : VFS × String :=
  let fullPath := resolve path s.cwd
  match mapGet s.files fullPath with
  | some content => (s, content)
  | none => (s, "Error: File " ++ fullPath ++ " does not exist.")

/-- JS `relative.replace(/^\//, "")`: drop one leading slash. -/
def stripLeadSlash : List Char → List Char
  | '/' :: t => t
  | l => l

/-- `VirtualFileSystem.listDir`: collect every key that starts with the
resolved target (raw string prefix) whose remainder, after stripping one
leading slash, is nonempty and contains no further `/`. -/
def listDir (s : VFS) (path : String) : VFS × String :=
  let targetDir := resolve path s.cwd
  let ms := s.files.foldl (fun acc e =>
      if jsStartsWith e.fst targetDir then
        let relative := stripLeadSlash (e.fst.data.drop targetDir.data.length)
        if relative ≠ [] ∧ '/' ∉ relative then acc ++ [relative] else acc
      else acc) []
  if ms = [] then (s, "(empty directory)")
  else (s, ⟨joinWith '\n' ms⟩)

/-- `VirtualFileSystem.delete`. -/
def delete (s : VFS) (path : String) : VFS × String :=
  let fullPath := resolve path s.cwd
  if mapHas s.files fullPath then
    ({ s with files := mapDelete s.files fullPath }, "Deleted " ++ fullPath)
  else (s, "Error: File " ++ fullPath ++ " not found")

/-- `VirtualFileSystem.cd` (JS `path || "."` reads `"."` for the empty path). -/
def cd (s : VFS) (path : String) : VFS × String :=
  let p := if path = "" then "." else path
  let newCwd := resolve p s.cwd
  ({ s with cwd := newCwd }, "Changed directory to " ++ newCwd)

end VFS

/-! ## The grep engine with context lines
(`VirtualFileSystem.grep(pattern, path?, before = 0, after = 0)` of
`file-tools.ts`) -/

/-- JS `lines[j]` inside the loops (always in bounds there). -/
def lineAt (lines : List String) (j : Nat) : String := lines.getD j ""

/-- One iteration of the window-marking inner loop:
`if (!matchedRanges.has(j)) matchedRanges.set(j, j === i); else if (j === i)
matchedRanges.set(j, true);`. -/
def markOne (i : Nat) (m : List (Nat × Bool)) (j : Nat) : List (Nat × Bool) :=
  if mapHas m j = false then mapSet m j (decide (j = i))
  else if j = i then mapSet m j true
  else m

/-- The window loop for one match at line `i`:
`for (j = max(0, i - before); j < min(lines.length, i + after + 1); j++)`. -/
def markWindow (numLines before after i : Nat) (m : List (Nat × Bool)) : List (Nat × Bool) :=
  (List.range' (i - before) (min numLines (i + after + 1) - (i - before))).foldl (markOne i) m

/-- The match-scanning loop: mark the context window of every matching line. -/
def buildRanges (lines : List String) (test : String → Bool) (before after : Nat) :
    List (Nat × Bool) :=
  (List.range lines.length).foldl
    (fun m i => if test (lineAt lines i) then markWindow lines.length before after i m else m) []

/-- JS `[...keys].sort((a, b) => a - b)`: ascending numeric sort. -/
def sortNat (l : List Nat) : List Nat := List.insertionSort (· ≤ ·) l

/-- One output line: `${filePath}:${idx + 1}${marker}${lines[idx]}` where the
marker is `:` for an exact match and `-` for a context line. -/
def fmtLine (path : String) (lines : List String) (isMatch : Bool) (idx : Nat) : String :=
  path ++ ":" ++ toString (idx + 1) ++ (if isMatch then ":" else "-") ++ lineAt lines idx

/-- The emission loop: walk the sorted included indices with `prevIdx`
starting at `-2`, pushing a `--` separator when `idx > prevIdx + 1 && prevIdx
>= 0`, then the formatted line. -/
def emitFold (path : String) (lines : List String) (m : List (Nat × Bool)) : List String :=
  ((sortNat (m.map Prod.fst)).foldl
    (fun (st : List String × Int) (idx : Nat) =>
      (st.fst ++ (if (idx : Int) > st.snd + 1 ∧ st.snd ≥ 0 then ["--"] else [])
        ++ [fmtLine path lines ((mapGet m idx).getD false) idx], (idx : Int)))
    ([], (-2 : Int))).fst

/-- The per-file body of `grep`: mark windows, then emit in order. -/
def grepFile (path : String) (lines : List String) (test : String → Bool) (before after : Nat) :
    List String :=
  emitFold path lines (buildRanges lines test before after)

/-- JS `content.split("\n")`. -/
def splitLines (content : String) : List String := splitStr '\n' content

/-- The file loop of `grep`: skip `/.dir` markers, keys not extending the
target, and — when the target is an exact file key — every other key; append
each surviving file's emitted lines. -/
def grepResults (files : List (String × String)) (test : String → Bool) (target : String)
    (before after : Nat) : List String :=
  files.foldl (fun acc e =>
    if jsEndsWith e.fst "/.dir" then acc
    else if jsStartsWith e.fst target = false then acc
    else if mapHas files target ∧ e.fst ≠ target then acc
    else acc ++ grepFile e.fst (splitLines e.snd) test before after) []

/-- `VirtualFileSystem.grep`: resolve the optional path (JS falsiness reads
the empty string as absent), run the file loop, then render: a no-matches
message, a 100-line-capped listing, or the newline join. -/
def VFS.grep (s : VFS) (regexTest : String → String → Bool) (pattern : String)
    (path : Option String) (before after : Nat) : VFS × String :=
  let target := match path with
    | some p => if p = "" then s.cwd else resolve p s.cwd
    | none => s.cwd
  let results := grepResults s.files (regexTest pattern) target before after
  (s, if results = [] then "No matches found."
      else if 100 < results.length then
        "Found " ++ toString results.length ++ " lines (showing first 100):\n"
          ++ String.intercalate "\n" (results.take 100)
      else String.intercalate "\n" results)

/-! ## The shell command dispatcher (`runShell` of `file-tools.ts`) -/

def jsParseDigits (l : List Char) : Option Nat :=
  let ds := l.takeWhile Char.isDigit
  if ds = [] then none
  else some (ds.foldl (fun n c => n * 10 + (c.toNat - 48)) 0)

/-- JS `parseInt(str, 10)`: skip blanks, optional sign, longest digit run;
`NaN` (no digits) becomes `none`. -/
def jsParseInt (s : String) : Option Int :=
  match s.data.dropWhile (fun ch => ch = ' ') with
  | '-' :: rest => (jsParseDigits rest).map (fun n => -(n : Int))
  | '+' :: rest => (jsParseDigits rest).map (fun n => (n : Int))
  | l => (jsParseDigits l).map (fun n => (n : Int))

/-- The `while (tokens.length && tokens[0].startsWith("-"))` flag-parsing loop
of the grep branch: consume `-A NUM` / `-B NUM`, error on a non-number or an
unknown flag; return the remaining tokens with the parsed values. -/
def grepFlagLoop : List String → Int → Int → (List String × Int × Int) ⊕ String
  | [], before, after => Sum.inl ([], before, after)
  | flag :: rest, before, after =>
    if jsStartsWith flag "-" = false then Sum.inl (flag :: rest, before, after)
    else if h : (flag = "-A" ∨ flag = "-B") ∧ rest ≠ [] then
      match rest, h.2 with
      | [], hne => absurd rfl hne
      | val :: rest2, _ =>
        match jsParseInt val with
        | none => Sum.inr ("Error: " ++ flag ++ " requires a number")
        | some v =>
          if flag = "-A" then grepFlagLoop rest2 before v
          else grepFlagLoop rest2 v after
    else Sum.inr ("Error: Unknown flag " ++ flag ++ ". Usage: grep [-A NUM] [-B NUM] PATTERN [PATH]")

/-- The `case "grep"` branch of the dispatcher: parse flags, then — only when
the token list is literally empty — return the usage text, else call `grep`
with `tokens[0]` and `tokens[1]`. JS hands `grep` possibly negative parsed
flag values but its window arithmetic (`Math.max(0, i - before)`) is modelled
on `Nat`, so they are clamped at the call; no claim exercises negatives. -/
def grepCmd (s : VFS) (regexTest : String → String → Bool) (arg : String) : VFS × String :=
  let tokens := splitStr ' ' arg
  match grepFlagLoop tokens 0 0 with
  | Sum.inr err => (s, err)
  | Sum.inl (tokens2, before, after) =>
    if tokens2.length = 0 then (s, "Usage: grep [-A NUM] [-B NUM] PATTERN [PATH]")
    else s.grep regexTest (tokens2.headD "") tokens2[1]? before.toNat after.toNat

/-- `runShell.execute`: split the command on spaces, dispatch on the verb. -/
def runShell (s : VFS) (regexTest : String → String → Bool) (command : String) : VFS × String :=
  let parts := splitStr ' ' command
  let cmd := parts.headD ""
  let arg := String.intercalate " " (parts.drop 1)
  if cmd = "ls" then s.listDir (if arg = "" then "." else arg)
  else if cmd = "pwd" then (s, s.cwd)
  else if cmd = "cd" then s.cd arg
  else if cmd = "rm" then s.delete arg
  else if cmd = "grep" then grepCmd s regexTest arg
  else (s, "Error: Command '" ++ cmd ++ "' not implemented in virtual sandbox.")

/-! ## Tool-call trace collection (`runAgent`, `agent.ts` lines 93–107) -/

/-- One tool call as the AI SDK reports it inside a step. -/
structure SDKToolCall where
  toolCallId : String
  toolName : String
  input : List (String × String)
deriving DecidableEq

/-- One tool result as the AI SDK reports it inside a step. -/
structure SDKToolResult where
  toolCallId : String
  output : String
deriving DecidableEq

/-- One step of the finished run, as iterated by the collection loop. -/
structure SDKStep where
  toolCalls : List SDKToolCall
  toolResults : List SDKToolResult
deriving DecidableEq

/-- The `ToolCall` record interface of `agent.ts`. -/
structure ToolCallRec where
  name : String
  args : List (String × String)
  result : String
deriving DecidableEq

/-- The body of the collection loop: pair a call with the step's result of the
same `toolCallId` (`String(toolResult?.output ?? "")`). -/
def mkToolCallRec (step : SDKStep) (tc : SDKToolCall) : ToolCallRec :=
  { name := tc.toolName
    args := tc.input
    result := match step.toolResults.find? (fun r => decide (r.toolCallId = tc.toolCallId)) with
      | some r => r.output
      | none => "" }

/-- The double loop of `runAgent` that builds `toolCalls` by pushing one
record per call of each step, in step order. -/
def collectToolCalls (steps : List SDKStep) : List ToolCallRec :=
  steps.foldl (fun acc step => acc ++ step.toolCalls.map (mkToolCallRec step)) []

/-! ## The step-bounded agent loop

Modelled from the spec: the driving loop itself lives in the external AI SDK
(`generateText`/`streamText` with `stopWhen: stepCountIs(bound)`), outside
the repository; only the bounds (50 batch, 10 streaming) are repository
code (`agent.ts`). §4.5 of the spec: per step the model either requests a
tool call — executed synchronously, its textual result fed back — or emits
final text; the run ends `Completed` on final text and `StepLimitReached`
when the budget is exhausted, still returning a result. -/

/-- Modelled from the spec: per step the model either requests a tool call or
emits final text. -/
inductive ModelAction where
  | toolCall : String → List (String × String) → ModelAction
  | finalText : String → ModelAction

/-- Modelled from the spec: the two terminal states of a run. -/
inductive LoopOutcome where
  | completed : LoopOutcome
  | stepLimitReached : LoopOutcome
deriving DecidableEq

/-- Modelled from the spec: the structured result a run always returns. -/
structure LoopResult where
  text : String
  steps : Nat
  trace : List ToolCallRec
  outcome : LoopOutcome
deriving DecidableEq

/-- Modelled from the spec: the bounded step loop. `model` maps the number of
steps taken so far to the model's next action; `execTool` executes a tool
call to its textual result. -/
def runLoopAux (model : Nat → ModelAction)
    (execTool : String → List (String × String) → String) :
    Nat → Nat → List ToolCallRec → LoopResult
  | 0, steps, trace =>
    { text := "", steps := steps, trace := trace.reverse
      outcome := LoopOutcome.stepLimitReached }
  | fuel + 1, steps, trace =>
    match model steps with
    | ModelAction.finalText t =>
      { text := t, steps := steps + 1, trace := trace.reverse
        outcome := LoopOutcome.completed }
    | ModelAction.toolCall nm args =>
      runLoopAux model execTool fuel (steps + 1)
        ({ name := nm, args := args, result := execTool nm args } :: trace)

/-- Modelled from the spec: a run with step budget `bound`. -/
def runAgentLoop (model : Nat → ModelAction)
    (execTool : String → List (String × String) → String) (bound : Nat) : LoopResult :=
  runLoopAux model execTool bound 0 []

/-- `stopWhen: stepCountIs(50)` of `runAgent` (`agent.ts`). -/
def batchStepBound : Nat := 50

/-- `stopWhen: stepCountIs(10)` of `runAgentStreaming` (`agent.ts`). -/
def streamingStepBound : Nat := 10

/-! ## The claim-side transcription of the grep emission (for the refinement
theorem of the context/separator/format claim) -/

/-- Transcribed from the claim: line `idx` is included when some matching
line `j` puts it in the inclusive window `[max(0, j - before),
min(lastIndex, j + after)]` (on `Nat`, `j - before` is the truncated
subtraction). -/
def specWindowHit (lines : List String) (test : String → Bool) (before after idx : Nat) : Bool :=
  (List.range lines.length).any (fun j =>
    test (lineAt lines j) && decide (j - before ≤ idx)
      && decide (idx ≤ min (lines.length - 1) (j + after)))

/-- Transcribed from the claim: the included indices in ascending order. -/
def specIncluded (lines : List String) (test : String → Bool) (before after : Nat) : List Nat :=
  (List.range lines.length).filter (fun idx => specWindowHit lines test before after idx)

/-- Transcribed from the claim: emit the included indices in ascending order,
a `--` separator between consecutive emitted indices at gap ≥ 2, each line
`path:lineNumber:content` for an exact match and `path:lineNumber-content`
for context, 1-based. -/
def specEmitFile (path : String) (lines : List String) (test : String → Bool)
    (before after : Nat) : List String :=
  ((specIncluded lines test before after).foldl
    (fun (st : List String × Int) (idx : Nat) =>
      (st.fst ++ (if (idx : Int) > st.snd + 1 ∧ st.snd ≥ 0 then ["--"] else [])
        ++ [fmtLine path lines (test (lineAt lines idx)) idx], (idx : Int)))
    ([], (-2 : Int))).fst

/-- A path consisting of `k` `..` segments, `k ≥ 1`: `..`, `../..`, … -/
def dotsOnly (k : Nat) : String := ⟨joinWith '/' (List.replicate k ['.', '.'])⟩

/-- A retained segment is clean: nonempty, not `.`, not `..`, slash-free. -/
def cleanSeg (s : List Char) : Prop :=
  s ≠ [] ∧ s ≠ ['.'] ∧ s ≠ ['.', '.'] ∧ '/' ∉ s

/-- Line `j` lies in the context window of a matching line with index `< p`
(the prefix of the match-scanning loop already processed): the coverage
invariant of `buildRanges`. -/
def coveredB (lines : List String) (test : String → Bool) (before after p j : Nat) : Bool :=
  (List.range p).any (fun i =>
    test (lineAt lines i) && decide (i - before ≤ j)
      && decide (j < min lines.length (i + after + 1)))

/-! ## Association-list lemmas -/

theorem mapGet_set_self {κ α : Type} [DecidableEq κ] (m : List (κ × α)) (k : κ) (v : α) :
    mapGet (mapSet m k v) k = some v := by
  induction m with
  | nil => simp [mapSet, mapGet]
  | cons e t ih =>
    rcases e with ⟨ek, ev⟩
    by_cases h : ek = k
    · simp [mapSet, mapGet, h]
    · simpa [mapSet, mapGet, h] using ih

theorem mapGet_set_ne {κ α : Type} [DecidableEq κ] (m : List (κ × α)) (k k' : κ) (v : α)
    (h : k' ≠ k) : mapGet (mapSet m k v) k' = mapGet m k' := by
  induction m with
  | nil => simp [mapSet, mapGet, Ne.symm h]
  | cons e t ih =>
    rcases e with ⟨ek, ev⟩
    by_cases he : ek = k
    · subst he
      simp [mapSet, mapGet, Ne.symm h]
    · by_cases hk' : ek = k'
      · simp [mapSet, mapGet, he, hk', h, Ne.symm h]
      · simp [mapSet, mapGet, he, hk', ih]

theorem mapGet_delete_self {κ α : Type} [DecidableEq κ] (m : List (κ × α)) (k : κ) :
    mapGet (mapDelete m k) k = none := by
  induction m with
  | nil => simp [mapDelete, mapGet]
  | cons e t ih =>
    rcases e with ⟨ek, ev⟩
    by_cases he : ek = k
    · simp [mapDelete, he, ih]
    · simp [mapDelete, mapGet, he, ih]

theorem mapGet_delete_ne {κ α : Type} [DecidableEq κ] (m : List (κ × α)) (k k' : κ)
    (h : k' ≠ k) : mapGet (mapDelete m k) k' = mapGet m k' := by
  induction m with
  | nil => simp [mapDelete, mapGet]
  | cons e t ih =>
    rcases e with ⟨ek, ev⟩
    by_cases he : ek = k
    · have hek' : ¬ ek = k' := by rw [he]; exact Ne.symm h
      simp [mapDelete, mapGet, he, hek', h, Ne.symm h, ih]
    · by_cases hk' : ek = k'
      · simp [mapDelete, mapGet, he, hk', h, Ne.symm h]
      · simp [mapDelete, mapGet, he, hk', ih]

theorem mapGet_eq_none_iff {κ α : Type} [DecidableEq κ] (m : List (κ × α)) (k : κ) :
    mapGet m k = none ↔ k ∉ m.map Prod.fst := by
  induction m with
  | nil => simp [mapGet]
  | cons e t ih =>
    by_cases he : e.fst = k
    · simp [mapGet, he]
    · simp [mapGet, he, ih, Ne.symm he]

/-! ## Splitting and joining lemmas -/

theorem splitOnChar_ne_nil (c : Char) (l : List Char) : splitOnChar c l ≠ [] := by
  cases l with
  | nil => simp [splitOnChar]
  | cons x xs =>
    by_cases h : x = c
    · simp [splitOnChar, h]
    · simp only [splitOnChar, h, if_false]
      rcases hs : splitOnChar c xs with _ | ⟨a, b⟩ <;> simp

theorem splitOnChar_cons_ne (c x : Char) (xs : List Char) (h : ¬ x = c) (a : List Char)
    (b : List (List Char)) (hs : splitOnChar c xs = a :: b) :
    splitOnChar c (x :: xs) = (x :: a) :: b := by
  simp only [splitOnChar, h, if_false, hs]

theorem splitOnChar_append (c : Char) (xs ys : List Char) :
    splitOnChar c (xs ++ c :: ys) = splitOnChar c xs ++ splitOnChar c ys := by
  induction xs with
  | nil => simp [splitOnChar]
  | cons x t ih =>
    by_cases h : x = c
    · simp [splitOnChar, h, ih]
    · rcases hs : splitOnChar c t with _ | ⟨a, b⟩
      · exact absurd hs (splitOnChar_ne_nil c t)
      · have h1 : splitOnChar c (x :: (t ++ c :: ys)) = (x :: a) :: (b ++ splitOnChar c ys) := by
          apply splitOnChar_cons_ne c x _ h
          rw [ih, hs]
          rfl
        rw [List.cons_append, h1, splitOnChar_cons_ne c x t h a b hs]
        rfl

theorem not_mem_of_mem_splitOnChar (c : Char) (l : List Char) :
    ∀ s ∈ splitOnChar c l, c ∉ s := by
  induction l with
  | nil => simp [splitOnChar]
  | cons x xs ih =>
    intro s hs
    by_cases h : x = c
    · rw [show splitOnChar c (x :: xs) = [] :: splitOnChar c xs by
        simp [splitOnChar, h]] at hs
      rcases List.mem_cons.mp hs with h1 | h1
      · simp [h1]
      · exact ih s h1
    · rcases hsp : splitOnChar c xs with _ | ⟨a, b⟩
      · exact absurd hsp (splitOnChar_ne_nil c xs)
      · rw [splitOnChar_cons_ne c x xs h a b hsp] at hs
        rcases List.mem_cons.mp hs with h1 | h1
        · subst h1
          have ha : c ∉ a := ih a (by rw [hsp]; exact List.mem_cons_self a b)
          intro hc
          rcases List.mem_cons.mp hc with hc | hc
          · exact h hc.symm
          · exact ha hc
        · exact ih s (by rw [hsp]; exact List.mem_cons_of_mem a h1)

theorem splitOnChar_of_not_mem (c : Char) (l : List Char) (h : c ∉ l) :
    splitOnChar c l = [l] := by
  induction l with
  | nil => simp [splitOnChar]
  | cons x xs ih =>
    have hx : ¬ x = c := fun hxc => h (by simp [hxc])
    have hxs : c ∉ xs := fun hc => h (List.mem_cons_of_mem x hc)
    simp [splitOnChar, hx, ih hxs]

theorem splitOnChar_joinWith (c : Char) (parts : List (List Char)) (hne : parts ≠ [])
    (h : ∀ p ∈ parts, c ∉ p) : splitOnChar c (joinWith c parts) = parts := by
  induction parts with
  | nil => exact absurd rfl hne
  | cons p rest ih =>
    cases rest with
    | nil => simpa [joinWith] using splitOnChar_of_not_mem c p (h p (by simp))
    | cons q t =>
      have hjoin : joinWith c (p :: q :: t) = p ++ c :: joinWith c (q :: t) := rfl
      rw [hjoin, splitOnChar_append,
        splitOnChar_of_not_mem c p (h p (by simp)),
        ih (by simp) (fun r hr => h r (List.mem_cons_of_mem p hr))]
      rfl

/-! ## Canonical-form invariant of `resolve` -/

theorem resStep_clean (acc : List (List Char)) (part : List Char)
    (hacc : ∀ s ∈ acc, cleanSeg s) (hpart : '/' ∉ part) :
    ∀ s ∈ resStep acc part, cleanSeg s := by
  unfold resStep
  by_cases h1 : part = ['.', '.']
  · rw [if_pos h1]
    exact fun s hs => hacc s ((List.dropLast_sublist acc).subset hs)
  · rw [if_neg h1]
    by_cases h2 : part ≠ [] ∧ part ≠ ['.']
    · rw [if_pos h2]
      intro s hs
      rcases List.mem_append.mp hs with hs | hs
      · exact hacc s hs
      · have : s = part := by simpa using hs
        exact this ▸ ⟨h2.1, h2.2, h1, hpart⟩
    · rw [if_neg h2]
      exact hacc

theorem foldl_resStep_clean (parts : List (List Char)) :
    ∀ acc : List (List Char), (∀ p ∈ parts, '/' ∉ p) → (∀ s ∈ acc, cleanSeg s) →
      ∀ s ∈ parts.foldl resStep acc, cleanSeg s := by
  induction parts with
  | nil => exact fun acc _ hacc => hacc
  | cons p rest ih =>
    intro acc hp hacc
    exact ih (resStep acc p) (fun r hr => hp r (List.mem_cons_of_mem p hr))
      (resStep_clean acc p hacc (hp p (by simp)))

/-- The claim: every resolved path is canonical — it starts with `/` and is
`/` followed by the slash-join of segments none of which is empty, `.` or
`..` (hence no `//`, no unresolved `..`, and never a path above `/`). -/
theorem resolve_canonical (path cwd : String) :
    (resolve path cwd).data.head? = some '/' ∧
    ∃ parts : List (List Char),
      (resolve path cwd).data = '/' :: joinWith '/' parts ∧
      ∀ s ∈ parts, s ≠ [] ∧ s ≠ ['.'] ∧ s ≠ ['.', '.'] ∧ '/' ∉ s := by
  unfold resolve
  refine ⟨rfl, (splitOnChar '/' _).foldl resStep [], rfl, ?_⟩
  exact foldl_resStep_clean _ [] (not_mem_of_mem_splitOnChar '/' _) (by simp)

/-! ## Only-dots paths (`..`, `../..`, …) -/

theorem foldl_dotdot (k : Nat) :
    ∀ L : List (List Char), L.length ≤ k →
      (List.replicate k ['.', '.']).foldl resStep L = [] := by
  induction k with
  | zero =>
    intro L hL
    rw [List.length_eq_zero.mp (Nat.le_zero.mp hL)]
    rfl
  | succ k ih =>
    intro L hL
    rw [List.replicate_succ, List.foldl_cons]
    have hstep : resStep L ['.', '.'] = L.dropLast := by simp [resStep]
    rw [hstep]
    exact ih L.dropLast (by rw [List.length_dropLast]; omega)

/-- The claim as stated is false: `..` with cwd `/home/user` resolves to
`/home`, not `/`. -/
theorem resolve_dots_counterexample :
    resolve ".." "/home/user" ≠ "/" ∧ resolve ".." "/home/user" = "/home" := by
  constructor <;> decide

/-- The amended claim: a path of `k ≥ 1` `..` segments resolves to exactly `/`
whenever `k` is at least the number of segments the normalization retains
from `cwd` (for shorter `..` chains the result is the corresponding ancestor
of the normalized `cwd`, not `/`). -/
theorem resolve_dots_amended (cwd : String) (k : Nat) (h1 : 1 ≤ k)
    (h2 : ((splitOnChar '/' (rstripSlash cwd.data)).foldl resStep []).length ≤ k) :
    resolve (dotsOnly k) cwd = "/" := by
  have hdd : ∀ p ∈ List.replicate k ['.', '.'], '/' ∉ p := by
    intro p hp
    rw [List.eq_of_mem_replicate hp]
    decide
  have hhead : (dotsOnly k).data.head? = some '.' := by
    rcases k with _ | k
    · omega
    · show (joinWith '/' (List.replicate (k + 1) ['.', '.'])).head? = some '.'
      rw [List.replicate_succ]
      rcases k with _ | k
      · rfl
      · rw [List.replicate_succ]
        rfl
  have hne : (dotsOnly k).data.head? ≠ some '/' := by
    rw [hhead]; decide
  have hsplit :
      splitOnChar '/' (rstripSlash cwd.data ++ '/' :: (dotsOnly k).data)
        = splitOnChar '/' (rstripSlash cwd.data) ++ List.replicate k ['.', '.'] := by
    rw [splitOnChar_append]
    congr 1
    exact splitOnChar_joinWith '/' _ (by simp; omega) hdd
  show (⟨'/' :: joinWith '/'
      ((splitOnChar '/' (if (dotsOnly k).data.head? = some '/' then (dotsOnly k).data
        else rstripSlash cwd.data ++ '/' :: (dotsOnly k).data)).foldl resStep [])⟩ : String)
    = "/"
  rw [if_neg hne, hsplit, List.foldl_append, foldl_dotdot k _ h2]
  rfl

theorem resolve_dots_amended_witness :
    (1 ≤ 2 ∧
      ((splitOnChar '/' (rstripSlash ("/home/user" : String).data)).foldl resStep []).length ≤ 2) ∧
    dotsOnly 2 = "../.." ∧ resolve (dotsOnly 2) "/home/user" = "/" :=
  ⟨⟨by decide, by decide⟩, by decide, resolve_dots_amended "/home/user" 2 (by decide) (by decide)⟩

/-! ## Write/read round-trip -/

/-- The claim: writing `c` at `p` and reading `p` back on the unchanged-cwd
successor state returns exactly `c`. -/
theorem write_read_roundtrip (s : VFS) (p c : String) :
    ((s.write p c).fst.read p).snd = c ∧ (s.write p c).fst.cwd = s.cwd := by
  refine ⟨?_, rfl⟩
  show (VFS.read { s with files := mapSet s.files (resolve p s.cwd) c } p).snd = c
  simp [VFS.read, mapGet_set_self]

/-! ## The raw-string-prefix leak of `listDir` -/

/-- The claim: `listDir` decides membership by raw string prefix of the
resolved target, so a state with the single file key `/home/user2` makes
`listDir("/home/user")` list the entry `2`, though `/home/user2` is not a
descendant of `/home/user`. -/
theorem listDir_string_prefix_leak :
    (VFS.listDir { files := [("/home/user2", "xyz")], cwd := "/home/user" } "/home/user").snd
      = "2" := by
  decide

/-! ## Frame and effect of the read-only operations and `delete` -/

theorem jsStartsWith_append (pre rest : String) : jsStartsWith (pre ++ rest) pre = true := by
  unfold jsStartsWith
  rw [String.data_append]
  exact List.isPrefixOf_iff_prefix.mpr (List.prefix_append pre.data rest.data)

/-- The claim: `read`, `listDir` and `grep` leave the whole state unchanged;
`delete` on an absent resolved path is an error (its message carries the word
`Error`) that leaves the state unchanged, and on a present path removes
exactly that key, preserving every other key and the cwd. -/
theorem vfs_frame_effects (s : VFS) (p : String) :
    (s.read p).fst = s ∧ (s.listDir p).fst = s ∧
    (∀ rt pat pth b a, (s.grep rt pat pth b a).fst = s) ∧
    (mapHas s.files (resolve p s.cwd) = false →
      (s.delete p).fst = s ∧ jsStartsWith (s.delete p).snd "Error" = true ∧
      ("Error" : String).data <:+: ((s.delete p).snd).data) ∧
    (mapHas s.files (resolve p s.cwd) = true →
      (s.delete p).fst.cwd = s.cwd ∧
      mapGet (s.delete p).fst.files (resolve p s.cwd) = none ∧
      ∀ k, k ≠ resolve p s.cwd → mapGet (s.delete p).fst.files k = mapGet s.files k) := by
  have hread : (s.read p).fst = s := by
    simp only [VFS.read]
    rcases hg : mapGet s.files (resolve p s.cwd) with _ | c <;> rfl
  have hlist : (s.listDir p).fst = s := by
    simp only [VFS.listDir]
    split <;> rfl
  have hdelF : mapHas s.files (resolve p s.cwd) = false →
      s.delete p = (s, "Error: File " ++ resolve p s.cwd ++ " not found") := by
    intro h
    simp only [VFS.delete]
    rw [h]
    simp
  have hdelT : mapHas s.files (resolve p s.cwd) = true →
      s.delete p = ({ s with files := mapDelete s.files (resolve p s.cwd) },
        "Deleted " ++ resolve p s.cwd) := by
    intro h
    simp only [VFS.delete]
    rw [h]
    simp
  refine ⟨hread, hlist, fun rt pat pth b a => rfl, ?_, ?_⟩
  · intro h
    have e1 : (s.delete p).snd = "Error: File " ++ resolve p s.cwd ++ " not found" := by
      rw [hdelF h]
    have e2 : (s.delete p).fst = s := by rw [hdelF h]
    have hsplit : "Error: File " ++ resolve p s.cwd ++ " not found"
        = "Error" ++ (": File " ++ (resolve p s.cwd ++ " not found")) := by
      have hlit : ("Error: File " : String) = "Error" ++ ": File " := by decide
      rw [hlit, String.append_assoc, String.append_assoc]
    refine ⟨e2, ?_, ?_⟩
    · rw [e1, hsplit]
      exact jsStartsWith_append _ _
    · rw [e1, hsplit, String.data_append]
      exact (List.prefix_append _ _).isInfix
  · intro h
    have e1 : (s.delete p).fst
        = { s with files := mapDelete s.files (resolve p s.cwd) } := by
      rw [hdelT h]
    rw [e1]
    exact ⟨rfl, mapGet_delete_self s.files (resolve p s.cwd),
      fun k hk => mapGet_delete_ne s.files (resolve p s.cwd) k hk⟩

theorem vfs_frame_effects_witness :
    (mapHas initVFS.files (resolve "nope.txt" initVFS.cwd) = false ∧
      (initVFS.delete "nope.txt").fst = initVFS) ∧
    (mapHas
        (VFS.mk [("/home/user/a.txt", "xx"), ("/home/user/b.txt", "yy")] "/home/user").files
        (resolve "a.txt" "/home/user") = true ∧
      mapGet
        ((VFS.mk [("/home/user/a.txt", "xx"), ("/home/user/b.txt", "yy")] "/home/user").delete
          "a.txt").fst.files (resolve "a.txt" "/home/user") = none ∧
      mapGet
        ((VFS.mk [("/home/user/a.txt", "xx"), ("/home/user/b.txt", "yy")] "/home/user").delete
          "a.txt").fst.files "/home/user/b.txt" = some "yy") :=
  ⟨⟨by decide, ((vfs_frame_effects initVFS "nope.txt").2.2.2.1 (by decide)).1⟩,
    by decide,
    ((vfs_frame_effects (VFS.mk [("/home/user/a.txt", "xx"), ("/home/user/b.txt", "yy")]
        "/home/user") "a.txt").2.2.2.2 (by decide)).2.1,
    by
      have h := ((vfs_frame_effects (VFS.mk [("/home/user/a.txt", "xx"),
        ("/home/user/b.txt", "yy")] "/home/user") "a.txt").2.2.2.2 (by decide)).2.2
        "/home/user/b.txt" (by decide)
      rw [h]
      decide⟩

/-! ## The missing-pattern behaviour of the grep dispatcher (code bug)

The dispatcher's own test suite (`file tools › grep without pattern returns
error`) expects a result containing `Error` and `requires a pattern`; the
dispatcher at `file-tools.ts` lines 43–65 instead falls through to an
empty-pattern search for a bare `grep` (the token list `[""]` is nonempty)
and returns a plain usage line, with neither marker, when the tokens run out
after flags. -/

theorem grep_missing_pattern_eval :
    (runShell initVFS (fun _ _ => true) "grep").snd = "No matches found." ∧
    (runShell initVFS (fun _ _ => true) "grep -A 1").snd
      = "Usage: grep [-A NUM] [-B NUM] PATTERN [PATH]" ∧
    ¬ ("Error" : String).data <:+: ("No matches found." : String).data ∧
    ¬ ("Error" : String).data
        <:+: ("Usage: grep [-A NUM] [-B NUM] PATTERN [PATH]" : String).data ∧
    ¬ ("requires a pattern" : String).data
        <:+: ("Usage: grep [-A NUM] [-B NUM] PATTERN [PATH]" : String).data := by
  refine ⟨by decide, by decide, by decide, by decide, by decide⟩

/-! ## Step bound of the agent loop -/

theorem runLoopAux_always_tool (model : Nat → ModelAction)
    (execTool : String → List (String × String) → String)
    (h : ∀ n, ∃ nm args, model n = ModelAction.toolCall nm args) :
    ∀ fuel steps trace,
      (runLoopAux model execTool fuel steps trace).outcome = LoopOutcome.stepLimitReached ∧
      (runLoopAux model execTool fuel steps trace).steps = steps + fuel := by
  intro fuel
  induction fuel with
  | zero => intro steps trace; exact ⟨rfl, rfl⟩
  | succ n ih =>
    intro steps trace
    obtain ⟨nm, args, hm⟩ := h steps
    simp only [runLoopAux, hm]
    obtain ⟨h1, h2⟩ := ih (steps + 1) _
    exact ⟨h1, by rw [h2]; omega⟩

/-- The claim: with a model that keeps requesting tool calls and never emits
final text, the loop terminates at exactly the configured step bound — 50 for
the batch `runAgent`, 10 for the streaming variant — and still returns a
result (whose outcome is the step-limit-reached terminal state). -/
theorem agent_step_bound (model : Nat → ModelAction)
    (execTool : String → List (String × String) → String)
    (h : ∀ n, ∃ nm args, model n = ModelAction.toolCall nm args) :
    (runAgentLoop model execTool batchStepBound).outcome = LoopOutcome.stepLimitReached ∧
    (runAgentLoop model execTool batchStepBound).steps = batchStepBound ∧
    (runAgentLoop model execTool streamingStepBound).outcome = LoopOutcome.stepLimitReached ∧
    (runAgentLoop model execTool streamingStepBound).steps = streamingStepBound := by
  obtain ⟨b1, b2⟩ := runLoopAux_always_tool model execTool h batchStepBound 0 []
  obtain ⟨s1, s2⟩ := runLoopAux_always_tool model execTool h streamingStepBound 0 []
  exact ⟨b1, by rw [runAgentLoop, b2]; omega, s1, by rw [runAgentLoop, s2]; omega⟩

theorem agent_step_bound_witness :
    (∀ n : Nat, ∃ nm args,
      (fun _ : Nat => ModelAction.toolCall "runShell" [("command", "ls")]) n
        = ModelAction.toolCall nm args) ∧
    (runAgentLoop (fun _ => ModelAction.toolCall "runShell" [("command", "ls")])
        (fun _ _ => "ok") batchStepBound).steps = batchStepBound ∧
    (runAgentLoop (fun _ => ModelAction.toolCall "runShell" [("command", "ls")])
        (fun _ _ => "ok") streamingStepBound).outcome = LoopOutcome.stepLimitReached :=
  ⟨fun _ => ⟨"runShell", [("command", "ls")], rfl⟩,
    (agent_step_bound _ _ (fun _ => ⟨"runShell", [("command", "ls")], rfl⟩)).2.1,
    (agent_step_bound _ _ (fun _ => ⟨"runShell", [("command", "ls")], rfl⟩)).2.2.1⟩

/-! ## Order and pairing of the collected tool-call trace -/

theorem find?_unique {α : Type} (p : α → Bool) (l : List α) (r : α) (hr : r ∈ l)
    (hpr : p r = true) (huniq : ∀ r₂ ∈ l, p r₂ = true → r₂ = r) :
    l.find? p = some r := by
  induction l with
  | nil => cases hr
  | cons x t ih =>
    by_cases hx : p x = true
    · rw [List.find?_cons_of_pos t hx, huniq x (List.mem_cons_self x t) hx]
    · have hrx : r ≠ x := fun hh => hx (hh ▸ hpr)
      have hrt : r ∈ t := by
        rcases List.mem_cons.mp hr with h1 | h1
        · exact absurd h1 hrx
        · exact h1
      rw [List.find?_cons_of_neg t hx]
      exact ih hrt (fun r₂ h2 hp2 => huniq r₂ (List.mem_cons_of_mem x h2) hp2)

theorem collectToolCalls_aux (steps : List SDKStep) :
    ∀ acc : List ToolCallRec,
      steps.foldl (fun acc step => acc ++ step.toolCalls.map (mkToolCallRec step)) acc
        = acc ++ steps.flatMap (fun st => st.toolCalls.map (mkToolCallRec st)) := by
  induction steps with
  | nil => intro acc; simp
  | cons st rest ih =>
    intro acc
    rw [List.foldl_cons, ih, List.flatMap_cons, List.append_assoc]

/-- The claim: the collected `toolCalls` sequence has exactly one record per
tool invocation, in emission order (step order, and call order within a
step), and — whenever a step's results hold exactly one entry with a call's
id — that call's record pairs its name and arguments with that result's
output. -/
theorem toolcalls_trace (steps : List SDKStep) :
    collectToolCalls steps = steps.flatMap (fun st => st.toolCalls.map (mkToolCallRec st)) ∧
    ∀ st ∈ steps, ∀ tc ∈ st.toolCalls, ∀ r ∈ st.toolResults,
      r.toolCallId = tc.toolCallId →
      (∀ r₂ ∈ st.toolResults, r₂.toolCallId = tc.toolCallId → r₂ = r) →
      mkToolCallRec st tc = { name := tc.toolName, args := tc.input, result := r.output } := by
  constructor
  · rw [collectToolCalls, collectToolCalls_aux steps []]
    rfl
  · intro st _ tc _ r hr hid huniq
    have hfind : st.toolResults.find? (fun r₂ => decide (r₂.toolCallId = tc.toolCallId))
        = some r :=
      find?_unique _ _ r hr (by simp [hid])
        (fun r₂ h2 hp2 => huniq r₂ h2 (by simpa using hp2))
    rw [mkToolCallRec, hfind]

theorem toolcalls_trace_witness :
    (collectToolCalls
        [SDKStep.mk [SDKToolCall.mk "id1" "writeFile" [("path", "a")]]
          [SDKToolResult.mk "id1" "ok1"],
         SDKStep.mk [SDKToolCall.mk "id2" "readFile" [("path", "a")]]
          [SDKToolResult.mk "id2" "ok2"]]
      = [ToolCallRec.mk "writeFile" [("path", "a")] "ok1",
         ToolCallRec.mk "readFile" [("path", "a")] "ok2"]) ∧
    mkToolCallRec
        (SDKStep.mk [SDKToolCall.mk "id1" "writeFile" [("path", "a")]]
          [SDKToolResult.mk "id1" "ok1"])
        (SDKToolCall.mk "id1" "writeFile" [("path", "a")])
      = ToolCallRec.mk "writeFile" [("path", "a")] "ok1" :=
  ⟨by decide,
    (toolcalls_trace
        [SDKStep.mk [SDKToolCall.mk "id1" "writeFile" [("path", "a")]]
          [SDKToolResult.mk "id1" "ok1"],
         SDKStep.mk [SDKToolCall.mk "id2" "readFile" [("path", "a")]]
          [SDKToolResult.mk "id2" "ok2"]]).2
      (SDKStep.mk [SDKToolCall.mk "id1" "writeFile" [("path", "a")]]
        [SDKToolResult.mk "id1" "ok1"]) (by decide)
      (SDKToolCall.mk "id1" "writeFile" [("path", "a")]) (by decide)
      (SDKToolResult.mk "id1" "ok1") (by decide) (by decide) (by decide)⟩

/-! ## The grep context engine matches the claimed emission -/

theorem markOne_get_ne (i : Nat) (m : List (Nat × Bool)) (j j' : Nat) (h : j' ≠ j) :
    mapGet (markOne i m j) j' = mapGet m j' := by
  unfold markOne
  split
  · exact mapGet_set_ne m j j' _ h
  · split
    · exact mapGet_set_ne m j j' _ h
    · rfl

theorem markOne_get_eq (i : Nat) (m : List (Nat × Bool)) (j : Nat) :
    mapGet (markOne i m j) j
      = some (if j = i then true else (mapGet m j).getD false) := by
  unfold markOne
  rcases hg : mapGet m j with _ | v
  · have hhas : mapHas m j = false := by simp [mapHas, hg]
    rw [if_pos hhas, mapGet_set_self]
    by_cases hj : j = i <;> simp [hj, hg]
  · have hhas : ¬ mapHas m j = false := by simp [mapHas, hg]
    rw [if_neg hhas]
    by_cases hj : j = i
    · rw [if_pos hj, mapGet_set_self, if_pos hj]
    · rw [if_neg hj, hg, if_neg hj]
      rfl

theorem foldl_markOne_get (i : Nat) (js : List Nat) (hnd : js.Nodup) :
    ∀ (m : List (Nat × Bool)) (j : Nat),
      mapGet (js.foldl (markOne i) m) j
        = if j ∈ js then some (if j = i then true else (mapGet m j).getD false)
          else mapGet m j := by
  induction js with
  | nil => intro m j; simp
  | cons j0 rest ih =>
    intro m j
    have hj0 : j0 ∉ rest := (List.nodup_cons.mp hnd).1
    have hrest : rest.Nodup := (List.nodup_cons.mp hnd).2
    rw [List.foldl_cons, ih hrest]
    by_cases hmem : j ∈ rest
    · have hne : j ≠ j0 := fun hh => hj0 (hh ▸ hmem)
      rw [if_pos hmem, if_pos (List.mem_cons_of_mem j0 hmem), markOne_get_ne i m j0 j hne]
    · by_cases hj : j = j0
      · subst hj
        rw [if_neg hmem, if_pos (List.mem_cons_self j rest), markOne_get_eq]
      · rw [if_neg hmem, if_neg (by simp [hj, hmem]), markOne_get_ne i m j0 j hj]

theorem markWindow_get (numLines before after i : Nat) (m : List (Nat × Bool)) (j : Nat) :
    mapGet (markWindow numLines before after i m) j
      = if i - before ≤ j ∧ j < min numLines (i + after + 1)
        then some (if j = i then true else (mapGet m j).getD false)
        else mapGet m j := by
  unfold markWindow
  rw [foldl_markOne_get i _ (List.nodup_range' _ _) m j]
  congr 1
  rw [eq_iff_iff, List.mem_range'_1]
  omega

theorem mapSet_keys {κ α : Type} [DecidableEq κ] (m : List (κ × α)) (k : κ) (v : α) :
    (mapSet m k v).map Prod.fst
      = if k ∈ m.map Prod.fst then m.map Prod.fst else m.map Prod.fst ++ [k] := by
  induction m with
  | nil => simp [mapSet]
  | cons e t ih =>
    rcases e with ⟨ek, ev⟩
    by_cases he : ek = k
    · subst he
      simp [mapSet]
    · by_cases hk : k ∈ t.map Prod.fst
      · simp [mapSet, he, Ne.symm he, hk, ih]
      · simp [mapSet, he, Ne.symm he, hk, ih]

theorem mapSet_keys_nodup {κ α : Type} [DecidableEq κ] (m : List (κ × α)) (k : κ) (v : α)
    (h : (m.map Prod.fst).Nodup) : ((mapSet m k v).map Prod.fst).Nodup := by
  rw [mapSet_keys]
  by_cases hk : k ∈ m.map Prod.fst
  · rwa [if_pos hk]
  · rw [if_neg hk]
    simp only [List.nodup_append, List.nodup_cons]
    exact ⟨h, by simp, by simpa [List.disjoint_right] using fun hc => hk hc⟩

theorem markOne_keys_nodup (i : Nat) (m : List (Nat × Bool)) (j : Nat)
    (h : (m.map Prod.fst).Nodup) : ((markOne i m j).map Prod.fst).Nodup := by
  unfold markOne
  split
  · exact mapSet_keys_nodup m j _ h
  · split
    · exact mapSet_keys_nodup m j _ h
    · exact h

theorem foldl_markOne_keys_nodup (i : Nat) (js : List Nat) :
    ∀ m : List (Nat × Bool), (m.map Prod.fst).Nodup →
      ((js.foldl (markOne i) m).map Prod.fst).Nodup := by
  induction js with
  | nil => exact fun m h => h
  | cons j0 rest ih =>
    intro m h
    exact ih (markOne i m j0) (markOne_keys_nodup i m j0 h)

theorem markWindow_keys_nodup (numLines before after i : Nat) (m : List (Nat × Bool))
    (h : (m.map Prod.fst).Nodup) : ((markWindow numLines before after i m).map Prod.fst).Nodup := by
  unfold markWindow
  exact foldl_markOne_keys_nodup i _ m h

theorem buildRanges_keys_nodup (lines : List String) (test : String → Bool)
    (before after : Nat) : ((buildRanges lines test before after).map Prod.fst).Nodup := by
  unfold buildRanges
  suffices h : ∀ (is : List Nat) (m : List (Nat × Bool)), (m.map Prod.fst).Nodup →
      ((is.foldl (fun m i =>
          if test (lineAt lines i) then markWindow lines.length before after i m else m)
        m).map Prod.fst).Nodup by
    exact h (List.range lines.length) [] (by simp)
  intro is
  induction is with
  | nil => exact fun m h => h
  | cons i0 rest ih =>
    intro m h
    rw [List.foldl_cons]
    apply ih
    by_cases ht : test (lineAt lines i0) = true
    · rw [if_pos ht]
      exact markWindow_keys_nodup lines.length before after i0 m h
    · rw [if_neg ht]
      exact h

theorem coveredB_succ (lines : List String) (test : String → Bool) (b a p j : Nat) :
    coveredB lines test b a (p + 1) j
      = (coveredB lines test b a p j
         || (test (lineAt lines p) && decide (p - b ≤ j)
             && decide (j < min lines.length (p + a + 1)))) := by
  unfold coveredB
  rw [List.range_succ, List.any_append]
  simp

theorem coveredB_self (lines : List String) (test : String → Bool) (b a p j : Nat)
    (ht : test (lineAt lines j) = true) (hj : j < p) (hlen : j < lines.length) :
    coveredB lines test b a p j = true := by
  unfold coveredB
  rw [List.any_eq_true]
  refine ⟨j, List.mem_range.mpr hj, ?_⟩
  simp only [ht, Bool.true_and, Bool.and_eq_true, decide_eq_true_eq]
  omega

theorem buildRangesAux_get (lines : List String) (test : String → Bool) (b a : Nat) :
    ∀ p, p ≤ lines.length → ∀ j,
      mapGet ((List.range p).foldl
        (fun m i => if test (lineAt lines i) then markWindow lines.length b a i m else m) []) j
      = if coveredB lines test b a p j = true
        then some (test (lineAt lines j) && decide (j < p)) else none := by
  intro p
  induction p with
  | zero =>
    intro _ j
    simp [coveredB, mapGet]
  | succ p ih =>
    intro hp j
    have hplen : p < lines.length := hp
    have ihj := ih (Nat.le_of_lt hplen) j
    rw [List.range_succ, List.foldl_append, List.foldl_cons, List.foldl_nil, coveredB_succ]
    by_cases ht : test (lineAt lines p) = true
    · rw [if_pos ht, markWindow_get lines.length b a p _ j]
      by_cases hw : p - b ≤ j ∧ j < min lines.length (p + a + 1)
      · rw [if_pos hw]
        have hcov : (coveredB lines test b a p j
            || (test (lineAt lines p) && decide (p - b ≤ j)
                && decide (j < min lines.length (p + a + 1)))) = true := by
          simp [ht, hw.1, hw.2]
        rw [if_pos hcov]
        by_cases hj : j = p
        · subst hj
          rw [if_pos rfl]
          simp [ht]
        · rw [if_neg hj, ihj]
          by_cases hc : coveredB lines test b a p j = true
          · rw [if_pos hc]
            have hd : decide (j < p) = decide (j < p + 1) := by
              rw [decide_eq_decide]
              omega
            simp [hd]
          · rw [if_neg hc]
            by_cases htj : test (lineAt lines j) = true
            · by_cases hjp : j < p + 1
              · have hjp' : j < p := by omega
                exact absurd (coveredB_self lines test b a p j htj hjp' (by omega)) hc
              · simp [htj, hjp]
            · have htj' : test (lineAt lines j) = false := by
                cases htt : test (lineAt lines j)
                · rfl
                · exact absurd htt htj
              simp [htj']
      · rw [if_neg hw]
        have h2 : (test (lineAt lines p) && decide (p - b ≤ j)
            && decide (j < min lines.length (p + a + 1))) = false := by
          cases hA : decide (p - b ≤ j) <;> cases hB : decide (j < min lines.length (p + a + 1))
          · simp
          · simp
          · simp
          · exact absurd ⟨of_decide_eq_true hA, of_decide_eq_true hB⟩ hw
        rw [h2, Bool.or_false, ihj]
        by_cases hc : coveredB lines test b a p j = true
        · rw [if_pos hc, if_pos hc]
          have hj : j ≠ p := by
            intro hh
            subst hh
            exact hw ⟨by omega, by omega⟩
          have hd : decide (j < p) = decide (j < p + 1) := by
            rw [decide_eq_decide]
            omega
          rw [hd]
        · rw [if_neg hc, if_neg hc]
    · rw [if_neg ht]
      have ht' : test (lineAt lines p) = false := by
        cases htt : test (lineAt lines p)
        · rfl
        · exact absurd htt ht
      rw [ht']
      simp only [Bool.false_and, Bool.or_false]
      rw [ihj]
      by_cases hc : coveredB lines test b a p j = true
      · rw [if_pos hc, if_pos hc]
        by_cases hj : j = p
        · subst hj
          rw [ht']
          simp
        · have hd : decide (j < p) = decide (j < p + 1) := by
            rw [decide_eq_decide]
            omega
          rw [hd]
      · rw [if_neg hc, if_neg hc]

theorem buildRanges_get (lines : List String) (test : String → Bool) (b a : Nat) (j : Nat) :
    mapGet (buildRanges lines test b a) j
      = if coveredB lines test b a lines.length j = true
        then some (test (lineAt lines j)) else none := by
  unfold buildRanges
  rw [buildRangesAux_get lines test b a lines.length (le_refl _) j]
  by_cases hc : coveredB lines test b a lines.length j = true
  · rw [if_pos hc, if_pos hc]
    have hj : j < lines.length := by
      rcases List.any_eq_true.mp hc with ⟨i, _, hcond⟩
      simp only [Bool.and_eq_true, decide_eq_true_eq] at hcond
      omega
    simp [hj]
  · rw [if_neg hc, if_neg hc]

theorem mem_keys_iff_get {κ α : Type} [DecidableEq κ] (m : List (κ × α)) (k : κ) :
    k ∈ m.map Prod.fst ↔ mapGet m k ≠ none := by
  rw [Ne, mapGet_eq_none_iff, not_not]

theorem coveredB_iff_specHit (lines : List String) (test : String → Bool) (b a j : Nat) :
    coveredB lines test b a lines.length j = true
      ↔ (j < lines.length ∧ specWindowHit lines test b a j = true) := by
  unfold coveredB specWindowHit
  constructor
  · intro h
    rcases List.any_eq_true.mp h with ⟨i, hi, hcond⟩
    simp only [Bool.and_eq_true, decide_eq_true_eq] at hcond
    obtain ⟨⟨h1, hd2⟩, hd3⟩ := hcond
    have hi' : i < lines.length := List.mem_range.mp hi
    refine ⟨by omega, List.any_eq_true.mpr ⟨i, hi, ?_⟩⟩
    simp only [h1, Bool.true_and, Bool.and_eq_true, decide_eq_true_eq]
    omega
  · rintro ⟨hj, h⟩
    rcases List.any_eq_true.mp h with ⟨i, hi, hcond⟩
    simp only [Bool.and_eq_true, decide_eq_true_eq] at hcond
    obtain ⟨⟨h1, hd2⟩, hd3⟩ := hcond
    have hi' : i < lines.length := List.mem_range.mp hi
    refine List.any_eq_true.mpr ⟨i, hi, ?_⟩
    simp only [h1, Bool.true_and, Bool.and_eq_true, decide_eq_true_eq]
    omega

theorem mem_specIncluded (lines : List String) (test : String → Bool) (b a j : Nat) :
    j ∈ specIncluded lines test b a
      ↔ (j < lines.length ∧ specWindowHit lines test b a j = true) := by
  unfold specIncluded
  rw [List.mem_filter, List.mem_range]

theorem sortNat_keys_eq (lines : List String) (test : String → Bool) (b a : Nat) :
    sortNat ((buildRanges lines test b a).map Prod.fst) = specIncluded lines test b a := by
  unfold sortNat
  have hperm := List.perm_insertionSort (fun x1 x2 : Nat => x1 ≤ x2)
    ((buildRanges lines test b a).map Prod.fst)
  have hnd1 : (List.insertionSort (fun x1 x2 : Nat => x1 ≤ x2)
      ((buildRanges lines test b a).map Prod.fst)).Nodup :=
    hperm.symm.nodup (buildRanges_keys_nodup lines test b a)
  have hnd2 : (specIncluded lines test b a).Nodup := by
    unfold specIncluded
    exact (List.nodup_range lines.length).filter _
  have hsorted1 : List.Sorted (fun x1 x2 : Nat => x1 ≤ x2)
      (List.insertionSort (fun x1 x2 : Nat => x1 ≤ x2)
        ((buildRanges lines test b a).map Prod.fst)) :=
    List.sorted_insertionSort _ _
  have hsorted2 : List.Sorted (fun x1 x2 : Nat => x1 ≤ x2) (specIncluded lines test b a) := by
    unfold specIncluded
    exact ((List.pairwise_lt_range lines.length).filter _).imp (fun h => le_of_lt h)
  refine List.eq_of_perm_of_sorted ((List.perm_ext_iff_of_nodup hnd1 hnd2).mpr ?_)
    hsorted1 hsorted2
  intro j
  rw [hperm.mem_iff, mem_keys_iff_get, buildRanges_get, mem_specIncluded,
    ← coveredB_iff_specHit]
  by_cases hc : coveredB lines test b a lines.length j = true
  · simp [hc]
  · simp [hc]

theorem emit_fold_congr (path : String) (lines : List String) (m : List (Nat × Bool))
    (test : String → Bool) :
    ∀ l : List Nat, (∀ idx ∈ l, (mapGet m idx).getD false = test (lineAt lines idx)) →
    ∀ (acc : List String) (prev : Int),
      (l.foldl (fun (st : List String × Int) (idx : Nat) =>
          (st.fst ++ (if (idx : Int) > st.snd + 1 ∧ st.snd ≥ 0 then ["--"] else [])
            ++ [fmtLine path lines ((mapGet m idx).getD false) idx], (idx : Int)))
        (acc, prev)).fst
      = (l.foldl (fun (st : List String × Int) (idx : Nat) =>
          (st.fst ++ (if (idx : Int) > st.snd + 1 ∧ st.snd ≥ 0 then ["--"] else [])
            ++ [fmtLine path lines (test (lineAt lines idx)) idx], (idx : Int)))
        (acc, prev)).fst := by
  intro l
  induction l with
  | nil => intro _ acc prev; rfl
  | cons idx rest ih =>
    intro h acc prev
    rw [List.foldl_cons, List.foldl_cons, h idx (List.mem_cons_self idx rest)]
    exact ih (fun i hi => h i (List.mem_cons_of_mem idx hi)) _ _

/-- The claim: per scanned file, every matching line index `i` marks the
inclusive window `[max(0, i - before), min(lastIndex, i + after)]` as
included; the included indices are emitted in ascending order; a `--`
separator stands between consecutive emitted indices at gap ≥ 2; each line is
`path:lineNumber:content` for an exact match and `path:lineNumber-content`
for context, with 1-based numbers — the per-file emission of the source
equals the claim's transcription `specEmitFile`. -/
theorem grep_context_matches_spec (path : String) (lines : List String)
    (test : String → Bool) (before after : Nat) :
    grepFile path lines test before after = specEmitFile path lines test before after := by
  unfold grepFile emitFold specEmitFile
  rw [sortNat_keys_eq lines test before after]
  apply emit_fold_congr
  intro idx hidx
  have hc : coveredB lines test before after lines.length idx = true := by
    rw [coveredB_iff_specHit]
    exact (mem_specIncluded lines test before after idx).mp hidx
  rw [buildRanges_get, if_pos hc]
  rfl

/-! ## Single-file scoping of grep -/

theorem foldl_append_flatMap {α β : Type} (g : α → List β) (step : List β → α → List β)
    (hstep : ∀ acc e, step acc e = acc ++ g e) (l : List α) :
    ∀ acc, l.foldl step acc = acc ++ l.flatMap g := by
  induction l with
  | nil => intro acc; simp
  | cons e rest ih =>
    intro acc
    rw [List.foldl_cons, hstep, ih, List.flatMap_cons, List.append_assoc]

theorem grepResults_eq_flatMap (files : List (String × String)) (test : String → Bool)
    (target : String) (b a : Nat) :
    grepResults files test target b a
      = files.flatMap (fun e =>
          if jsEndsWith e.fst "/.dir" then []
          else if jsStartsWith e.fst target = false then []
          else if mapHas files target ∧ e.fst ≠ target then []
          else grepFile e.fst (splitLines e.snd) test b a) := by
  unfold grepResults
  rw [foldl_append_flatMap _ _ ?_ files []]
  · rfl
  · intro acc e
    split_ifs <;> simp

theorem grep_entry_ne (test : String → Bool) (target : String) (b a : Nat)
    (e : String × String) (hne : e.fst ≠ target) :
    (if jsEndsWith e.fst "/.dir" then []
     else if jsStartsWith e.fst target = false then []
     else if e.fst ≠ target then []
     else grepFile e.fst (splitLines e.snd) test b a) = ([] : List String) := by
  by_cases h1 : jsEndsWith e.fst "/.dir" = true
  · rw [if_pos h1]
  · rw [if_neg h1]
    by_cases h2 : jsStartsWith e.fst target = false
    · rw [if_pos h2]
    · rw [if_neg h2, if_pos hne]

theorem flatMap_nil_of_forall {α β : Type} (l : List α) (f : α → List β)
    (h : ∀ e ∈ l, f e = []) : l.flatMap f = [] := by
  induction l with
  | nil => rfl
  | cons e rest ih =>
    rw [List.flatMap_cons, h e (List.mem_cons_self e rest), List.nil_append]
    exact ih (fun x hx => h x (List.mem_cons_of_mem e hx))

theorem flatMap_grep_single (test : String → Bool) (target : String) (b a : Nat)
    (c : String) :
    ∀ l : List (String × String), (l.map Prod.fst).Nodup → mapGet l target = some c →
      (l.flatMap (fun e =>
        if jsEndsWith e.fst "/.dir" then []
        else if jsStartsWith e.fst target = false then []
        else if e.fst ≠ target then []
        else grepFile e.fst (splitLines e.snd) test b a))
      = (if jsEndsWith target "/.dir" then []
         else grepFile target (splitLines c) test b a) := by
  intro l
  induction l with
  | nil =>
    intro _ h
    simp [mapGet] at h
  | cons e rest ih =>
    rcases e with ⟨k, v⟩
    intro hnd hget
    by_cases hk : k = target
    · subst hk
      have hvc : v = c := by simpa [mapGet] using hget
      subst hvc
      have hout : k ∉ rest.map Prod.fst := by
        have h0 : (k :: rest.map Prod.fst).Nodup := by simpa using hnd
        exact (List.nodup_cons.mp h0).1
      rw [List.flatMap_cons]
      rw [flatMap_nil_of_forall rest _ (fun e he => grep_entry_ne test k b a e
        (fun hc => hout (hc ▸ List.mem_map_of_mem Prod.fst he)))]
      rw [List.append_nil]
      have hstart : jsStartsWith k k = true := by
        unfold jsStartsWith
        exact List.isPrefixOf_iff_prefix.mpr (List.prefix_refl _)
      by_cases hdir : jsEndsWith k "/.dir" = true
      · rw [if_pos hdir, if_pos hdir]
      · rw [if_neg hdir, if_neg hdir, hstart]
        simp
    · have hget' : mapGet rest target = some c := by simpa [mapGet, hk] using hget
      have hnd' : (rest.map Prod.fst).Nodup := by
        have : (k :: rest.map Prod.fst).Nodup := by simpa using hnd
        exact (List.nodup_cons.mp this).2
      rw [List.flatMap_cons, grep_entry_ne test target b a (k, v) hk, List.nil_append]
      exact ih hnd' hget'

/-- The claim: when grep's path argument resolves to an exact key of the
files map, grep scans only that single file — its result list is exactly the
target file's own emission (empty when the target is a `/.dir` marker), so
no line from any other file appears, even if other files match. -/
theorem grep_single_file_scope (s : VFS) (rt : String → String → Bool) (pat p : String)
    (b a : Nat) (c : String)
    (hnd : (s.files.map Prod.fst).Nodup)
    (hget : mapGet s.files (resolve p s.cwd) = some c) :
    grepResults s.files (rt pat) (resolve p s.cwd) b a
      = if jsEndsWith (resolve p s.cwd) "/.dir" = true then []
        else grepFile (resolve p s.cwd) (splitLines c) (rt pat) b a := by
  have hhas : mapHas s.files (resolve p s.cwd) = true := by simp [mapHas, hget]
  have hcongr : s.files.flatMap (fun e =>
        if jsEndsWith e.fst "/.dir" then []
        else if jsStartsWith e.fst (resolve p s.cwd) = false then []
        else if mapHas s.files (resolve p s.cwd) ∧ e.fst ≠ resolve p s.cwd then []
        else grepFile e.fst (splitLines e.snd) (rt pat) b a)
      = s.files.flatMap (fun e =>
        if jsEndsWith e.fst "/.dir" then []
        else if jsStartsWith e.fst (resolve p s.cwd) = false then []
        else if e.fst ≠ resolve p s.cwd then []
        else grepFile e.fst (splitLines e.snd) (rt pat) b a) :=
    List.flatMap_congr (fun e _ => by simp only [hhas, eq_self_iff_true, true_and])
  rw [grepResults_eq_flatMap, hcongr,
    flatMap_grep_single (rt pat) (resolve p s.cwd) b a c s.files hnd hget]

theorem grep_single_file_scope_witness :
    (((VFS.mk [("/home/user/a.txt", "match"), ("/home/user/b.txt", "match")]
        "/home/user").files.map Prod.fst).Nodup ∧
      mapGet (VFS.mk [("/home/user/a.txt", "match"), ("/home/user/b.txt", "match")]
        "/home/user").files (resolve "a.txt" "/home/user") = some "match") ∧
    grepResults (VFS.mk [("/home/user/a.txt", "match"), ("/home/user/b.txt", "match")]
        "/home/user").files ((fun _ _ => true) "match") (resolve "a.txt" "/home/user") 0 0
      = (if jsEndsWith (resolve "a.txt" "/home/user") "/.dir" = true then []
         else grepFile (resolve "a.txt" "/home/user") (splitLines "match")
           ((fun _ _ => true) "match") 0 0) ∧
    grepResults (VFS.mk [("/home/user/a.txt", "match"), ("/home/user/b.txt", "match")]
        "/home/user").files ((fun _ _ => true) "match") (resolve "a.txt" "/home/user") 0 0
      = ["/home/user/a.txt:1:match"] :=
  ⟨⟨by decide, by decide⟩,
    grep_single_file_scope
      (VFS.mk [("/home/user/a.txt", "match"), ("/home/user/b.txt", "match")] "/home/user")
      (fun _ _ => true) "match" "a.txt" 0 0 "match" (by decide) (by decide),
    by decide⟩
